import Mathlib

/-!
Shallow embedding of the in-memory hash-join engine of
src/Interpreters/HashJoin.cpp (build/probe engine, strategy dispatch,
cross-join streamer, used-flags, non-joined stash), together with proofs
of the specification claims about it.
-/

namespace HashJoinM

/-- Join kinds of ASTTableJoin (the ones the engine dispatches on). -/
inductive JoinKind
  | Left
  | Inner
  | Right
  | Full
  | Cross
deriving DecidableEq, Repr

/-- Join strictness of ASTTableJoin. -/
inductive JoinStrictness
  | Any
  | All
  | Semi
  | Anti
  | Asof
  | RightAny
deriving DecidableEq, Repr

/-- Predicate isLeft from join_common (kind = Left). -/
def isLeft : JoinKind → Bool
  | JoinKind.Left => true
  | _ => false

/-- Predicate isInner from join_common (kind = Inner). -/
def isInner : JoinKind → Bool
  | JoinKind.Inner => true
  | _ => false

/-- Predicate isRightOrFull from join_common (kind = Right or Full). -/
def isRightOrFull : JoinKind → Bool
  | JoinKind.Right => true
  | JoinKind.Full => true
  | _ => false

/-- Error codes raised by HashJoin.cpp (namespace ErrorCodes). -/
inductive ErrorCode
  | NOT_IMPLEMENTED
  | NO_SUCH_COLUMN_IN_TABLE
  | INCOMPATIBLE_TYPE_OF_JOIN
  | UNSUPPORTED_JOIN_KEYS
  | LOGICAL_ERROR
  | SYNTAX_ERROR
  | SET_SIZE_LIMIT_EXCEEDED
  | TYPE_MISMATCH
  | NUMBER_OF_ARGUMENTS_DOESNT_MATCH
deriving DecidableEq, Repr

/-- Hash-table variant tags (HashJoin::Type). -/
inductive HJType
  | EMPTY
  | CROSS
  | DICT
  | key8
  | key16
  | key32
  | key64
  | keys128
  | keys256
  | key_string
  | key_fixed_string
  | hashed
deriving DecidableEq, Repr

/-- Profile of one key column as observed by HashJoin::chooseMethod:
whether it is fixed-and-contiguous, its fixed value size in bytes, whether
it is numeric, a ColumnString (possibly wrapped in a const), or a
ColumnFixedString. -/
structure KeyColumn where
  isFixedAndContiguous : Bool
  sizeOfValueIfFixed : Nat
  isNumeric : Bool
  isString : Bool
  isFixedString : Bool
deriving DecidableEq, Repr

/-- Model of the all_fixed / keys_bytes loop of HashJoin::chooseMethod
(HashJoin.cpp lines 259-271): scans the key columns left to right, stops at
the first non fixed-and-contiguous one; returns the all_fixed flag and the
bytes accumulated before stopping. -/
def allFixedAux : List KeyColumn → Bool × Nat
  | [] => (true, 0)
  | c :: rest =>
    if !c.isFixedAndContiguous then (false, 0)
    else
      let r := allFixedAux rest
      (r.1, c.sizeOfValueIfFixed + r.2)

/-- Width bucketing of a single numeric key (HashJoin.cpp lines 274-290). -/
def numericBucket (size_of_field : Nat) : Except ErrorCode HJType :=
  if size_of_field = 1 then Except.ok HJType.key8
  else if size_of_field = 2 then Except.ok HJType.key16
  else if size_of_field = 4 then Except.ok HJType.key32
  else if size_of_field = 8 then Except.ok HJType.key64
  else if size_of_field = 16 then Except.ok HJType.keys128
  else if size_of_field = 32 then Except.ok HJType.keys256
  else Except.error ErrorCode.LOGICAL_ERROR

/-- Model of HashJoin::chooseMethod (HashJoin.cpp lines 252-309), translated
branch for branch from the source. -/
def chooseMethod (key_columns : List KeyColumn) : Except ErrorCode HJType :=
  match key_columns with
  | [] => Except.ok HJType.CROSS
  | c0 :: rest =>
    if rest.isEmpty && c0.isNumeric then
      numericBucket c0.sizeOfValueIfFixed
    else if (allFixedAux (c0 :: rest)).1 && (allFixedAux (c0 :: rest)).2 ≤ 16 then
      Except.ok HJType.keys128
    else if (allFixedAux (c0 :: rest)).1 && (allFixedAux (c0 :: rest)).2 ≤ 32 then
      Except.ok HJType.keys256
    else if rest.isEmpty && c0.isString then
      Except.ok HJType.key_string
    else if rest.isEmpty && c0.isFixedString then
      Except.ok HJType.key_fixed_string
    else
      Except.ok HJType.hashed

/-- Width table as worded by the specification (rule 2 of §4.1):
1→key8, 2→key16, 4→key32, 8→key64, 16→keys128, 32→keys256, else logic error. -/
def specWidthBucket (width : Nat) : Except ErrorCode HJType :=
  if width = 1 then Except.ok HJType.key8
  else if width = 2 then Except.ok HJType.key16
  else if width = 4 then Except.ok HJType.key32
  else if width = 8 then Except.ok HJType.key64
  else if width = 16 then Except.ok HJType.keys128
  else if width = 32 then Except.ok HJType.keys256
  else Except.error ErrorCode.LOGICAL_ERROR

/-- Total byte size of all keys, as worded by the specification (rule 3). -/
def specKeysTotalBytes (cols : List KeyColumn) : Nat :=
  (cols.map KeyColumn.sizeOfValueIfFixed).sum

/-- Method selection following the specification text of §4.1 top-down:
zero keys → cross; one numeric key → width bucket; all keys fixed and
contiguous with total ≤ 16 bytes → keys128, ≤ 32 → keys256; a single string
key → key_string; a single fixed-string key → key_fixed_string; else hashed. -/
def chooseMethodSpec (key_columns : List KeyColumn) : Except ErrorCode HJType :=
  match key_columns with
  | [] => Except.ok HJType.CROSS
  | c0 :: rest =>
    if rest.isEmpty && c0.isNumeric then
      specWidthBucket c0.sizeOfValueIfFixed
    else if (c0 :: rest).all KeyColumn.isFixedAndContiguous
           && specKeysTotalBytes (c0 :: rest) ≤ 16 then
      Except.ok HJType.keys128
    else if (c0 :: rest).all KeyColumn.isFixedAndContiguous
           && specKeysTotalBytes (c0 :: rest) ≤ 32 then
      Except.ok HJType.keys256
    else if rest.isEmpty && c0.isString then
      Except.ok HJType.key_string
    else if rest.isEmpty && c0.isFixedString then
      Except.ok HJType.key_fixed_string
    else
      Except.ok HJType.hashed

/-- Model of the ASOF-strictness checks of the HashJoin constructor
(HashJoin.cpp lines 221-232), in source order: kind must be Left or Inner,
the key-column count (asof key included) must be at least 2, and the right
asof key column must not be nullable. -/
def asofConstructorCheck (kind : JoinKind) (num_key_columns : Nat)
    (right_asof_nullable : Bool) : Except ErrorCode Unit :=
  if !(isLeft kind || isInner kind) then Except.error ErrorCode.NOT_IMPLEMENTED
  else if num_key_columns ≤ 1 then Except.error ErrorCode.SYNTAX_ERROR
  else if right_asof_nullable then Except.error ErrorCode.NOT_IMPLEMENTED
  else Except.ok ()

/-- Largest value of RowRef::SizeT, i.e. uint32_t (2^32 - 1). -/
def rowRefSizeTMax : Nat := 2 ^ 32 - 1

/-- Entry checks of HashJoin::addJoinedBlock (HashJoin.cpp lines 619-627):
uninitialized engine and dictionary engine are logic errors; a block with
more rows than RowRef::SizeT can index raises NOT_IMPLEMENTED. -/
def addJoinedBlockEntryCheck (initialized : Bool) (over_dictionary : Bool)
    (rows : Nat) : Except ErrorCode Unit :=
  if !initialized then Except.error ErrorCode.LOGICAL_ERROR
  else if over_dictionary then Except.error ErrorCode.LOGICAL_ERROR
  else if rowRefSizeTMax < rows then Except.error ErrorCode.NOT_IMPLEMENTED
  else Except.ok ()

/-- RowRef: stable back-reference into the stored block list, modelled as a
(stored block index, row index) pair. -/
structure RowRef where
  block : Nat
  row_num : Nat
deriving DecidableEq, Repr

/-- Model of Inserter::insertOne (HashJoin.cpp lines 474-481) over a MapsOne
table modelled as a function from keys to an optional RowRef: the new RowRef
is stored when the key is freshly inserted or when any_take_last_row is set,
and the existing mapped value is kept otherwise. -/
def insertOne {κ : Type} [DecidableEq κ] (any_take_last_row : Bool)
    (m : κ → Option RowRef) (k : κ) (r : RowRef) : κ → Option RowRef :=
  match m k with
  | none => fun x => if x = k then some r else m x
  | some _ =>
    if any_take_last_row then fun x => if x = k then some r else m x
    else m

/-- Sequence of insertOne calls for build rows that share the key k, in
encounter order (insertFromBlockImplTypeCase dispatching to insertOne for
every MapsOne strictness). -/
def insertOneSeq {κ : Type} [DecidableEq κ] (any_take_last_row : Bool)
    (m : κ → Option RowRef) (k : κ) : List RowRef → (κ → Option RowRef)
  | [] => m
  | r :: rest =>
    insertOneSeq any_take_last_row (insertOne any_take_last_row m k r) k rest

/-- Model of JoinUsedFlags::setUsedOnce over true need_flags (HashJoin.cpp
lines 97-106) in the sequential setting: returns true and sets the flag when
the flag at offset i was clear, returns false and leaves the state unchanged
otherwise. -/
def setUsedOnce (flags : Nat → Bool) (i : Nat) : Bool × (Nat → Bool) :=
  if flags i then (false, flags)
  else (true, fun j => if j = i then true else flags j)

/-- Model of the flag-gated probe branches of joinRightColumns for Right-Any,
Right-Semi and Inner-Any (HashJoin.cpp lines 974-995): each probe row either
misses (none) or finds a build entry at a stable used-flags offset (some o);
the entry is emitted exactly when setUsedOnce returns true. Returns the final
flags and the offsets of the emitted entries, in order. -/
def probeGuarded : List (Option Nat) → (Nat → Bool) → ((Nat → Bool) × List Nat)
  | [], flags => (flags, [])
  | none :: rest, flags => probeGuarded rest flags
  | some o :: rest, flags =>
    ((probeGuarded rest (setUsedOnce flags o).2).1,
     (if (setUsedOnce flags o).1 then [o] else [])
       ++ (probeGuarded rest (setUsedOnce flags o).2).2)

/-- Null-map bit of row i: false when no null map is present (no nullable
key component in the block). -/
def nullBit : Option (List Bool) → Nat → Bool
  | none, _ => false
  | some m, i => m.getD i false

/-- Right-side ON-condition mask at row i: a row may be inserted when no
mask column is present or its mask bit is true (insertFromBlockImplTypeCase,
HashJoin.cpp lines 529-531). -/
def maskHolds : Option (List Bool) → Nat → Bool
  | none, _ => true
  | some m, i => m.getD i false

/-- Row indices a build block contributes to the hash table in
insertFromBlockImplTypeCase (HashJoin.cpp lines 524-539): a row is skipped
when its null-map bit is set or its ON-condition mask bit is false. -/
def insertedRows (rows : Nat) (null_map join_mask : Option (List Bool)) : List Nat :=
  (List.range rows).filter (fun i => !nullBit null_map i && maskHolds join_mask i)

/-- Computation of save_nullmap in HashJoin::addJoinedBlock (lines 640-646):
set when the kind is Right or Full, the block has a null map, and some bit of
that null map is set. -/
def saveNullmap (kind : JoinKind) (null_map : Option (List Bool)) : Bool :=
  isRightOrFull kind &&
    (match null_map with
     | none => false
     | some m => m.any (fun b => b))

/-- Computation of not_joined_map in HashJoin::addJoinedBlock (lines
651-669): built only for Right/Full kinds with an ON-condition mask column;
bit i is set when the condition fails at row i, except when the row is
already covered by the saved null map (the "do not save twice" guard). -/
def notJoinedMap (kind : JoinKind) (rows : Nat)
    (null_map join_mask : Option (List Bool)) : Option (List Bool) :=
  match join_mask with
  | none => none
  | some jm =>
    if isRightOrFull kind then
      some ((List.range rows).map (fun i =>
        if jm.getD i false then false
        else if saveNullmap kind null_map && nullBit null_map i then false
        else true))
    else none

/-- Masks appended to blocks_nullmaps by HashJoin::addJoinedBlock (lines
699-703): first the null map itself when save_nullmap is set, then the
ON-condition not-joined map when present. -/
def blocksNullmaps (kind : JoinKind) (rows : Nat)
    (null_map join_mask : Option (List Bool)) : List (List Bool) :=
  (if saveNullmap kind null_map then
     (match null_map with
      | none => []
      | some m => [m])
   else []) ++
  (match notJoinedMap kind rows null_map join_mask with
   | none => []
   | some m => [m])

/-- Number of times NotJoinedHash::fillNullsFromBlocks (HashJoin.cpp lines
1562-1584) emits the stashed row i of a block: one emission per stashed mask
whose bit i is set. -/
def notJoinedEmitCount (stash : List (List Bool)) (i : Nat) : Nat :=
  (stash.map (fun m => if m.getD i false then 1 else 0)).sum

/-- One probe row as seen by joinRightColumns: its key, whether its key has
a null component (the left null-map bit), and whether it is filtered out by
the left ON-condition mask (AddedColumns::isRowFiltered). -/
structure ProbeRow (κ : Type) where
  key : κ
  keyNull : Bool
  filtered : Bool

/-- Per-row behaviour of joinRightColumns for KIND = Left, STRICTNESS = Anti
with need_filter = true (HashJoin.cpp lines 931-1021): returns the filter bit
of the row and the number of default right-side rows appended for it. A
null-key row takes the early null-map branch (addNotFoundRow with
add_missing, filter bit left at 0); an acceptable row whose key is found
takes the anti-join branch (nothing emitted); every other row takes the
not-found branch (filter bit set, one default row appended). -/
def antiLeftRowStep {κ : Type} (map_has : κ → Bool) (r : ProbeRow κ) : Bool × Nat :=
  if r.keyNull then (false, 1)
  else if !r.filtered && map_has r.key then (false, 0)
  else (true, 1)

/-- Filter vector produced by joinRightColumns for Anti-Left over a probe
block; bit i = 1 keeps left row i at the end-of-block filtering of
HashJoin::joinBlockImpl (lines 1180-1184). -/
def antiLeftFilter {κ : Type} (map_has : κ → Bool) (rows : List (ProbeRow κ)) :
    List Bool :=
  rows.map (fun r => (antiLeftRowStep map_has r).1)

/-- Number of default right-side rows appended by joinRightColumns for
Anti-Left over a probe block (appendDefaultRow and the final
applyLazyDefaults). -/
def antiLeftAddedRows {κ : Type} (map_has : κ → Bool) (rows : List (ProbeRow κ)) :
    Nat :=
  (rows.map (fun r => (antiLeftRowStep map_has r).2)).sum

/-- Cartesian strip of one left row: its pairs with every row of every right
block whose 1-based number is at least start_right_block (the inner loop of
HashJoin::joinBlockImplCross, lines 1297-1315, which skips blocks while
block_number < start_right_block). -/
def pairsFor {α β : Type} (l : α) (right_blocks : List (List β))
    (start_right_block : Nat) : List (α × β) :=
  (right_blocks.drop (start_right_block - 1)).flatMap (fun b => b.map (fun r => (l, r)))

/-- Total number of rows over all stored right blocks. -/
def rightRowsTotal {β : Type} (right_blocks : List (List β)) : Nat :=
  (right_blocks.map List.length).sum

/-- Outer loop of HashJoin::joinBlockImplCross (lines 1295-1326) over the
remaining left rows: accumulates the Cartesian pairs row by row; after a
full left row has been appended, if the accumulated row count exceeds
max_joined_block_rows the loop stops and saves the continuation
(left_position = the current left row, right_block = number of right blocks
plus 1). The start_right_block argument applies only to the first processed
row (resumption); later rows use 0, as the source resets it. -/
def crossLoop {α β : Type} (M : Nat) (right_blocks : List (List β)) :
    List α → Nat → Nat → Nat → List (α × β) × Option (Nat × Nat)
  | [], _, _, _ => ([], none)
  | l :: rest, pos, start_right_block, rows_added =>
    if M < rows_added + (pairsFor l right_blocks start_right_block).length then
      (pairsFor l right_blocks start_right_block,
       some (pos, right_blocks.length + 1))
    else
      (pairsFor l right_blocks start_right_block ++
         (crossLoop M right_blocks rest (pos + 1) 0
            (rows_added + (pairsFor l right_blocks start_right_block).length)).1,
       (crossLoop M right_blocks rest (pos + 1) 0
          (rows_added + (pairsFor l right_blocks start_right_block).length)).2)

/-- One call of HashJoin::joinBlockImplCross starting from the given
continuation state (left position, right block number); the initial call uses
(0, 0). Returns the produced output pairs and the saved continuation, if
any. -/
def joinBlockCross {α β : Type} (M : Nat) (left_rows : List α)
    (right_blocks : List (List β)) (start_left start_right_block : Nat) :
    List (α × β) × Option (Nat × Nat) :=
  crossLoop M right_blocks (left_rows.drop start_left) start_left
    start_right_block 0

/-- Driver re-entering joinBlockImplCross with the returned continuation
until none is produced, concatenating all produced outputs. The fuel bounds
the number of re-entries; left_rows.length + 1 calls always suffice. -/
def crossDrive {α β : Type} (M : Nat) (left_rows : List α)
    (right_blocks : List (List β)) : Nat → Nat → Nat → List (α × β)
  | 0, _, _ => []
  | fuel + 1, start_left, start_right_block =>
    match (joinBlockCross M left_rows right_blocks start_left
        start_right_block).2 with
    | none => (joinBlockCross M left_rows right_blocks start_left
        start_right_block).1
    | some c => (joinBlockCross M left_rows right_blocks start_left
        start_right_block).1
        ++ crossDrive M left_rows right_blocks fuel c.1 c.2

/-- Single-shot Cartesian product with no row limit, in left-row-major, then
right-block, then right-row order. -/
def crossProductAll {α β : Type} (left_rows : List α)
    (right_blocks : List (List β)) : List (α × β) :=
  left_rows.flatMap (fun l => right_blocks.flatMap (fun b => b.map (fun r => (l, r))))

end HashJoinM

namespace HashJoinM

theorem allFixedAux_fst (l : List KeyColumn) :
    (allFixedAux l).1 = l.all KeyColumn.isFixedAndContiguous := by
  induction l with
  | nil => rfl
  | cons c rest ih =>
    simp only [allFixedAux, List.all_cons]
    by_cases h : c.isFixedAndContiguous
    · simp [h, ih]
    · simp [h]

theorem allFixedAux_snd (l : List KeyColumn)
    (h : (allFixedAux l).1 = true) :
    (allFixedAux l).2 = specKeysTotalBytes l := by
  induction l with
  | nil => rfl
  | cons c rest ih =>
    simp only [allFixedAux] at h ⊢
    by_cases hc : c.isFixedAndContiguous
    · simp only [hc, Bool.not_true, Bool.false_eq_true, if_false] at h ⊢
      simp only [specKeysTotalBytes, List.map_cons, List.sum_cons]
      have := ih h
      simp only [specKeysTotalBytes] at this
      omega
    · simp [hc] at h

end HashJoinM

/-- Claim C5: chooseMethod selects the hash-table variant by the spec's
top-down rules: zero keys gives cross; a single numeric key is bucketed by
byte width 1/2/4/8/16/32 to key8/key16/key32/key64/keys128/keys256 and any
other numeric width raises a logic error; otherwise, if all keys are
fixed-and-contiguous with total size at most 16 bytes the result is keys128,
at most 32 bytes keys256; otherwise a single string key gives key_string and
a single fixed-string key gives key_fixed_string; everything else gives
hashed. Formalized as: the source translation equals the rule-by-rule
specification function on every key-column profile. -/
theorem chooseMethod_eq_spec (key_columns : List HashJoinM.KeyColumn) :
    HashJoinM.chooseMethod key_columns = HashJoinM.chooseMethodSpec key_columns := by
  match key_columns with
  | [] => rfl
  | c0 :: rest =>
    simp only [HashJoinM.chooseMethod, HashJoinM.chooseMethodSpec]
    by_cases hnum : rest.isEmpty && c0.isNumeric
    · simp [hnum, HashJoinM.numericBucket, HashJoinM.specWidthBucket]
    · by_cases hall : (HashJoinM.allFixedAux (c0 :: rest)).1 = true
      · have hall2 : (c0 :: rest).all HashJoinM.KeyColumn.isFixedAndContiguous = true := by
          rw [← HashJoinM.allFixedAux_fst]; exact hall
        rw [HashJoinM.allFixedAux_snd (c0 :: rest) hall]
        simp [hnum, HashJoinM.allFixedAux_fst, hall2]
      · have hall2 : (c0 :: rest).all HashJoinM.KeyColumn.isFixedAndContiguous = false := by
          rw [← HashJoinM.allFixedAux_fst]
          simp only [Bool.not_eq_true] at hall
          exact hall
        simp only [Bool.not_eq_true] at hall
        simp [hnum, hall, hall2]

/-- Claim C8: constructing a HashJoin with Asof strictness succeeds only
under three preconditions, each otherwise raising an error: the join kind
must be Left or Inner (else NotImplemented), there must be at least two key
columns in total (else SyntaxError), and the right-side asof key column must
not be nullable (else NotImplemented). -/
theorem asofConstructorCheck_characterization (kind : HashJoinM.JoinKind)
    (num_key_columns : Nat) (right_asof_nullable : Bool) :
    (HashJoinM.asofConstructorCheck kind num_key_columns right_asof_nullable
        = Except.ok ()
      ↔ ((kind = HashJoinM.JoinKind.Left ∨ kind = HashJoinM.JoinKind.Inner)
          ∧ 2 ≤ num_key_columns ∧ right_asof_nullable = false))
    ∧ (¬(kind = HashJoinM.JoinKind.Left ∨ kind = HashJoinM.JoinKind.Inner) →
        HashJoinM.asofConstructorCheck kind num_key_columns right_asof_nullable
          = Except.error HashJoinM.ErrorCode.NOT_IMPLEMENTED)
    ∧ ((kind = HashJoinM.JoinKind.Left ∨ kind = HashJoinM.JoinKind.Inner) →
        num_key_columns ≤ 1 →
        HashJoinM.asofConstructorCheck kind num_key_columns right_asof_nullable
          = Except.error HashJoinM.ErrorCode.SYNTAX_ERROR)
    ∧ ((kind = HashJoinM.JoinKind.Left ∨ kind = HashJoinM.JoinKind.Inner) →
        2 ≤ num_key_columns → right_asof_nullable = true →
        HashJoinM.asofConstructorCheck kind num_key_columns right_asof_nullable
          = Except.error HashJoinM.ErrorCode.NOT_IMPLEMENTED) := by
  cases kind <;> cases right_asof_nullable <;>
    by_cases hn : num_key_columns ≤ 1 <;>
    simp [HashJoinM.asofConstructorCheck, HashJoinM.isLeft, HashJoinM.isInner, hn] <;>
    omega

/-- Claim C8 witness: the three error cases and the success case at concrete
inputs, via the characterization theorem. -/
theorem asofConstructorCheck_characterization_witness :
    HashJoinM.asofConstructorCheck HashJoinM.JoinKind.Left 2 false = Except.ok ()
    ∧ HashJoinM.asofConstructorCheck HashJoinM.JoinKind.Right 2 false
        = Except.error HashJoinM.ErrorCode.NOT_IMPLEMENTED
    ∧ HashJoinM.asofConstructorCheck HashJoinM.JoinKind.Left 1 false
        = Except.error HashJoinM.ErrorCode.SYNTAX_ERROR
    ∧ HashJoinM.asofConstructorCheck HashJoinM.JoinKind.Inner 2 true
        = Except.error HashJoinM.ErrorCode.NOT_IMPLEMENTED := by
  refine ⟨?_, ?_, ?_, ?_⟩
  · exact (asofConstructorCheck_characterization HashJoinM.JoinKind.Left 2 false).1.mpr
      ⟨Or.inl rfl, by decide, rfl⟩
  · exact (asofConstructorCheck_characterization HashJoinM.JoinKind.Right 2 false).2.1
      (by decide)
  · exact (asofConstructorCheck_characterization HashJoinM.JoinKind.Left 1 false).2.2.1
      (Or.inl rfl) (by decide)
  · exact (asofConstructorCheck_characterization HashJoinM.JoinKind.Inner 2 true).2.2.2
      (Or.inr rfl) (by decide) rfl

/-- Claim C9: for every initialized, non-dictionary engine, addJoinedBlock
raises NotImplemented exactly when the source block has more than 2^32 - 1
rows (the RowRef row index is 32-bit); a block with at most 2^32 - 1 rows is
never rejected for this reason. -/
theorem addJoinedBlockEntryCheck_rows (initialized over_dictionary : Bool)
    (rows : Nat) (hinit : initialized = true) (hdict : over_dictionary = false) :
    (HashJoinM.addJoinedBlockEntryCheck initialized over_dictionary rows
        = Except.error HashJoinM.ErrorCode.NOT_IMPLEMENTED
      ↔ 2 ^ 32 - 1 < rows) := by
  subst hinit hdict
  simp [HashJoinM.addJoinedBlockEntryCheck, HashJoinM.rowRefSizeTMax]

/-- Claim C9 witness: at 2^32 rows the check raises NotImplemented, and at
2^32 - 1 rows it does not. -/
theorem addJoinedBlockEntryCheck_rows_witness :
    HashJoinM.addJoinedBlockEntryCheck true false (2 ^ 32)
      = Except.error HashJoinM.ErrorCode.NOT_IMPLEMENTED
    ∧ ¬(HashJoinM.addJoinedBlockEntryCheck true false (2 ^ 32 - 1)
      = Except.error HashJoinM.ErrorCode.NOT_IMPLEMENTED) := by
  constructor
  · exact (addJoinedBlockEntryCheck_rows true false (2 ^ 32) rfl rfl).mpr (by norm_num)
  · intro h
    have := (addJoinedBlockEntryCheck_rows true false (2 ^ 32 - 1) rfl rfl).mp h
    omega

namespace HashJoinM

theorem insertOne_false_keep {κ : Type} [DecidableEq κ] (m : κ → Option RowRef)
    (k : κ) (r : RowRef) (v : RowRef) (h : m k = some v) :
    insertOne false m k r = m := by
  unfold insertOne
  rw [h]
  rfl

theorem insertOne_true_update {κ : Type} [DecidableEq κ] (m : κ → Option RowRef)
    (k : κ) (r : RowRef) :
    insertOne true m k r k = some r := by
  unfold insertOne
  cases h : m k <;> simp

theorem insertOneSeq_keep_first {κ : Type} [DecidableEq κ] (k : κ)
    (rs : List RowRef) (m : κ → Option RowRef) (v : RowRef)
    (h : m k = some v) : insertOneSeq false m k rs k = some v := by
  induction rs generalizing m with
  | nil => simpa [insertOneSeq] using h
  | cons r rest ih =>
    rw [insertOneSeq, insertOne_false_keep m k r v h]
    exact ih m h

theorem insertOneSeq_take_last {κ : Type} [DecidableEq κ] (k : κ)
    (rs : List RowRef) (m : κ → Option RowRef) (h : rs ≠ []) :
    insertOneSeq true m k rs k = rs.getLast? := by
  induction rs generalizing m with
  | nil => cases h rfl
  | cons r rest ih =>
    rw [insertOneSeq]
    cases rest with
    | nil =>
      rw [insertOneSeq]
      rw [insertOne_true_update]
      rfl
    | cons r2 rest2 =>
      rw [ih (insertOne true m k r) (by simp)]
      rw [List.getLast?_cons_cons]

theorem setUsedOnce_fst (flags : Nat → Bool) (i : Nat) :
    (setUsedOnce flags i).1 = !flags i := by
  unfold setUsedOnce
  cases h : flags i <;> simp [h]

theorem setUsedOnce_snd_self (flags : Nat → Bool) (i : Nat) :
    (setUsedOnce flags i).2 i = true := by
  unfold setUsedOnce
  cases h : flags i <;> simp [h]

theorem probeGuarded_count (finds : List (Option Nat)) (flags : Nat → Bool)
    (o : Nat) :
    (probeGuarded finds flags).2.count o =
      if flags o then 0 else min 1 (finds.count (some o)) := by
  induction finds generalizing flags with
  | nil =>
    simp only [probeGuarded, List.count_nil]
    cases h : flags o <;> simp
  | cons f rest ih =>
    cases f with
    | none =>
      rw [probeGuarded, ih]
      simp [List.count_cons]
    | some p =>
      rw [probeGuarded]
      by_cases hp : flags p = true
      · have hs : setUsedOnce flags p = (false, flags) := by
          simp [setUsedOnce, hp]
        rw [hs]
        show (probeGuarded rest flags).2.count o = _
        rw [ih]
        by_cases ho : flags o = true
        · simp [ho]
        · have hop : o ≠ p := fun he => ho (by rw [he]; exact hp)
          simp [ho, List.count_cons, hop]
      · simp only [Bool.not_eq_true] at hp
        have hs : setUsedOnce flags p
            = (true, fun j => if j = p then true else flags j) := by
          simp [setUsedOnce, hp]
        rw [hs]
        show (p :: (probeGuarded rest
            (fun j => if j = p then true else flags j)).2).count o = _
        rw [List.count_cons, ih]
        by_cases hop : o = p
        · subst hop
          simp [hp, List.count_cons]
        · have hx : (if o = p then true else flags o) = flags o := by
            simp [hop]
          rw [hx]
          have hpo : ¬p = o := fun he => hop he.symm
          by_cases ho : flags o = true
          · simp [ho, List.count_cons, hop, hpo]
          · simp only [Bool.not_eq_true] at ho
            simp only [ho, Bool.false_eq_true, if_false]
            simp [List.count_cons, hop]
            omega

theorem getD_true_mem (l : List Bool) (i : Nat) (h : l.getD i false = true) :
    true ∈ l := by
  induction l generalizing i with
  | nil => simp [List.getD] at h
  | cons b rest ih =>
    cases i with
    | zero =>
      rw [List.getD_cons_zero] at h
      subst h
      exact List.mem_cons_self _ _
    | succ n =>
      rw [List.getD_cons_succ] at h
      exact List.mem_cons_of_mem b (ih n h)

theorem getD_map_range (f : Nat → Bool) (n i : Nat) (h : i < n) :
    ((List.range n).map f).getD i false = f i := by
  have hlen : i < ((List.range n).map f).length := by
    simpa [List.length_map, List.length_range] using h
  rw [List.getD_eq_getElem ((List.range n).map f) false hlen]
  simp [List.getElem_map, List.getElem_range]

end HashJoinM

namespace HashJoinM

/-- Claim C6: for every sequence of build rows inserted under a MapsOne
strictness (Any/Semi/Anti/RightAny) that share one key: with
any_take_last_row = false the mapped RowRef remains the first-inserted row
for that key; with any_take_last_row = true every duplicate insert
overwrites it, leaving the last-inserted row. -/
theorem insertOne_keeps_first_or_takes_last {κ : Type} [DecidableEq κ] (k : κ)
    (r0 : RowRef) (rs : List RowRef) :
    insertOneSeq false (fun _ => none) k (r0 :: rs) k = some r0
    ∧ insertOneSeq true (fun _ => none) k (r0 :: rs) k = (r0 :: rs).getLast? := by
  constructor
  · rw [insertOneSeq]
    have h1 : insertOne false (fun _ => none) k r0 k = some r0 := by
      unfold insertOne
      simp
    exact insertOneSeq_keep_first k rs _ r0 h1
  · exact insertOneSeq_take_last k (r0 :: rs) _ (by simp)

/-- Claim C6 witness: two rows with the same key; keep-first yields the
first RowRef, take-last yields the second. -/
theorem insertOne_keeps_first_or_takes_last_witness :
    insertOneSeq false (fun _ => none) (5 : Nat)
        (RowRef.mk 0 0 :: [RowRef.mk 0 1]) 5 = some (RowRef.mk 0 0)
    ∧ insertOneSeq true (fun _ => none) (5 : Nat)
        (RowRef.mk 0 0 :: [RowRef.mk 0 1]) 5
        = (RowRef.mk 0 0 :: [RowRef.mk 0 1]).getLast? :=
  insertOne_keeps_first_or_takes_last 5 (RowRef.mk 0 0) [RowRef.mk 0 1]

/-- Claim C3: for Right-Any, Right-Semi and Inner-Any joins, each build-table
entry (identified by its stable used-flags offset) contributes an emission at
most once over the entire sequence of probe rows: setUsedOnce returns true on
the first call for a given offset (and sets the flag) and false on every
later call, the emission is gated on that result, and hence each guarded
offset is emitted exactly min 1 (number of probe rows finding it) times —
never a second time. -/
theorem guarded_entry_emitted_at_most_once (finds : List (Option Nat)) (o : Nat) :
    (∀ flags i, (setUsedOnce flags i).1 = !flags i
        ∧ (setUsedOnce flags i).2 i = true)
    ∧ (probeGuarded finds (fun _ => false)).2.count o
        = min 1 (finds.count (some o))
    ∧ (probeGuarded finds (fun _ => false)).2.count o ≤ 1 := by
  refine ⟨fun flags i => ⟨setUsedOnce_fst flags i, setUsedOnce_snd_self flags i⟩, ?_, ?_⟩
  · rw [probeGuarded_count]
    simp
  · rw [probeGuarded_count]
    simp only [Bool.false_eq_true, if_false]
    omega

/-- Claim C4: for every build block added via addJoinedBlock, a row whose key
has any null component is never inserted into the hash table (insertion skips
it); for Right and Full kinds a stash entry carrying the block's null map is
appended to blocks_nullmaps, so the row re-surfaces during the non-joined
scan, while for Inner and Left kinds nothing is stashed and the row is
discarded entirely. -/
theorem nullKey_row_never_inserted (kind : JoinKind) (rows : Nat)
    (nm : List Bool) (join_mask : Option (List Bool)) (i : Nat)
    (hnull : nullBit (some nm) i = true) :
    i ∉ insertedRows rows (some nm) join_mask
    ∧ (isRightOrFull kind = true →
        ∃ m ∈ blocksNullmaps kind rows (some nm) join_mask,
          m.getD i false = true)
    ∧ ((kind = JoinKind.Inner ∨ kind = JoinKind.Left) →
        blocksNullmaps kind rows (some nm) join_mask = []) := by
  have hget : nm.getD i false = true := hnull
  refine ⟨?_, ?_, ?_⟩
  · intro hmem
    rw [insertedRows, List.mem_filter] at hmem
    have h2 := hmem.2
    rw [hnull] at h2
    simp at h2
  · intro hrf
    have hsave : saveNullmap kind (some nm) = true := by
      have hmem := getD_true_mem nm i hget
      simp only [saveNullmap, hrf, Bool.true_and, List.any_eq_true]
      exact ⟨true, hmem, rfl⟩
    refine ⟨nm, ?_, hget⟩
    rw [blocksNullmaps, hsave]
    simp
  · intro hk
    have hrf : isRightOrFull kind = false := by
      rcases hk with h | h <;> subst h <;> rfl
    have hsave : saveNullmap kind (some nm) = false := by
      simp [saveNullmap, hrf]
    rw [blocksNullmaps, hsave]
    cases join_mask <;> simp [notJoinedMap, hrf]

/-- Claim C4 witness: kind Right, a two-row block whose second row has a null
key and no ON-condition mask. -/
theorem nullKey_row_never_inserted_witness :
    1 ∉ insertedRows 2 (some [false, true]) none
    ∧ (isRightOrFull JoinKind.Right = true →
        ∃ m ∈ blocksNullmaps JoinKind.Right 2 (some [false, true]) none,
          m.getD 1 false = true)
    ∧ ((JoinKind.Right = JoinKind.Inner ∨ JoinKind.Right = JoinKind.Left) →
        blocksNullmaps JoinKind.Right 2 (some [false, true]) none = []) :=
  nullKey_row_never_inserted JoinKind.Right 2 [false, true] none 1 (by decide)

/-- Claim C10: in a Right or Full join, a build row that is excluded both
because a key component is null and because the right ON-condition mask is
false is recorded in the null-map stash exactly once: the condition-mask
stash entry skips rows already covered by the null-key stash entry, so the
non-joined scan emits that row once, never twice. -/
theorem doubly_excluded_row_stashed_once (kind : JoinKind) (rows : Nat)
    (nm jm : List Bool) (i : Nat)
    (hk : isRightOrFull kind = true) (hi : i < rows)
    (hnull : nm.getD i false = true) (hmask : jm.getD i false = false) :
    notJoinedEmitCount (blocksNullmaps kind rows (some nm) (some jm)) i = 1 := by
  have hsave : saveNullmap kind (some nm) = true := by
    have hmem := getD_true_mem nm i hnull
    simp only [saveNullmap, hk, Bool.true_and, List.any_eq_true]
    exact ⟨true, hmem, rfl⟩
  have hnj : notJoinedMap kind rows (some nm) (some jm)
      = some ((List.range rows).map (fun j =>
          if jm.getD j false then false
          else if saveNullmap kind (some nm) && nullBit (some nm) j then false
          else true)) := by
    simp [notJoinedMap, hk]
  have hl : ((List.range rows).map (fun j =>
      if jm.getD j false then false
      else if saveNullmap kind (some nm) && nullBit (some nm) j then false
      else true)).getD i false = false := by
    rw [getD_map_range _ rows i hi]
    rw [hmask, hsave]
    show (if (true && nm.getD i false) = true then false else true) = false
    rw [hnull]
    rfl
  rw [blocksNullmaps, hsave, hnj]
  show ((if nm.getD i false = true then 1 else 0)
      + ((if ((List.range rows).map (fun j =>
            if jm.getD j false then false
            else if saveNullmap kind (some nm) && nullBit (some nm) j then false
            else true)).getD i false = true then 1 else 0) + 0)) = 1
  rw [hnull, hl]
  rfl

/-- Claim C10 witness: kind Right, one row with a null key and a failed
ON-condition; the non-joined scan emits it exactly once. -/
theorem doubly_excluded_row_stashed_once_witness :
    notJoinedEmitCount
      (blocksNullmaps JoinKind.Right 1 (some [true]) (some [false])) 0 = 1 :=
  doubly_excluded_row_stashed_once JoinKind.Right 1 [true] [false] 0 rfl
    (by decide) rfl rfl

/-- Claim C1 (code-bug evidence): an Anti-Left probe block with a single row
whose key has a null component, probed against a table with no match for any
key. The claim (and spec §4.5 step 2) require the row to be emitted with
filter = 1 since no stored right row matches it; joinRightColumns instead
takes the early null-map branch, leaving the filter bit at 0 — the row is
removed by the end-of-block filtering of joinBlockImpl — while still
appending one default right-side row via addNotFoundRow, so the surviving
left row count (0) and the appended right-side row count (1) disagree. -/
theorem antiLeft_nullKey_row_dropped :
    antiLeftFilter (fun _ : Nat => false) [ProbeRow.mk 0 true false] = [false]
    ∧ (antiLeftFilter (fun _ : Nat => false) [ProbeRow.mk 0 true false]).count true = 0
    ∧ antiLeftAddedRows (fun _ : Nat => false) [ProbeRow.mk 0 true false] = 1 :=
  ⟨rfl, rfl, rfl⟩

end HashJoinM

namespace HashJoinM

theorem pairsFor_resume_nil {α β : Type} (l : α) (right_blocks : List (List β)) :
    pairsFor l right_blocks (right_blocks.length + 1) = [] := by
  rw [pairsFor, Nat.add_sub_cancel, List.drop_length]
  rfl

theorem crossLoop_cons_overflow {α β : Type} (M : Nat)
    (right_blocks : List (List β)) (l : α) (rest : List α)
    (pos srb ra : Nat) (h : M < ra + (pairsFor l right_blocks srb).length) :
    crossLoop M right_blocks (l :: rest) pos srb ra
      = (pairsFor l right_blocks srb, some (pos, right_blocks.length + 1)) := by
  rw [crossLoop, if_pos h]

theorem crossLoop_cons_continue {α β : Type} (M : Nat)
    (right_blocks : List (List β)) (l : α) (rest : List α)
    (pos srb ra : Nat) (h : ¬ M < ra + (pairsFor l right_blocks srb).length) :
    crossLoop M right_blocks (l :: rest) pos srb ra
      = (pairsFor l right_blocks srb ++
           (crossLoop M right_blocks rest (pos + 1) 0
              (ra + (pairsFor l right_blocks srb).length)).1,
         (crossLoop M right_blocks rest (pos + 1) 0
            (ra + (pairsFor l right_blocks srb).length)).2) := by
  rw [crossLoop, if_neg h]

theorem joinBlockCross_resume {α β : Type} (M : Nat) (left_rows : List α)
    (right_blocks : List (List β)) (pos : Nat) (l : α) (rest : List α)
    (hdrop : left_rows.drop pos = l :: rest) :
    joinBlockCross M left_rows right_blocks pos (right_blocks.length + 1)
      = crossLoop M right_blocks rest (pos + 1) 0 0 := by
  rw [joinBlockCross, hdrop, crossLoop, pairsFor_resume_nil]
  simp

theorem crossLoop_drive_eq {α β : Type} (M : Nat) (left_rows : List α)
    (right_blocks : List (List β)) :
    ∀ (rem : List α) (pos ra fuel : Nat),
      rem = left_rows.drop pos → rem.length ≤ fuel →
      (crossLoop M right_blocks rem pos 0 ra).1 ++
        (match (crossLoop M right_blocks rem pos 0 ra).2 with
         | none => []
         | some c => crossDrive M left_rows right_blocks fuel c.1 c.2) =
      rem.flatMap (fun x => pairsFor x right_blocks 0) := by
  intro rem
  induction rem with
  | nil =>
    intro pos ra fuel hdrop hfuel
    simp [crossLoop]
  | cons l rest ih =>
    intro pos ra fuel hdrop hfuel
    have hrest : rest = left_rows.drop (pos + 1) := by
      have h1 : (left_rows.drop pos).drop 1 = left_rows.drop (pos + 1) :=
        List.drop_drop 1 pos left_rows
      rw [← hdrop] at h1
      exact h1
    by_cases hov : M < ra + (pairsFor l right_blocks 0).length
    · rw [crossLoop_cons_overflow M right_blocks l rest pos 0 ra hov]
      dsimp only
      cases fuel with
      | zero => exact absurd hfuel (by simp)
      | succ f2 =>
        rw [crossDrive]
        rw [joinBlockCross_resume M left_rows right_blocks pos l rest hdrop.symm]
        rcases h5 : crossLoop M right_blocks rest (pos + 1) 0 0 with ⟨out, cont⟩
        have hih := ih (pos + 1) 0 f2 hrest (by simpa using hfuel)
        rw [h5] at hih
        dsimp only at hih
        rw [List.flatMap_cons]
        cases cont with
        | none =>
          dsimp only
          rw [List.append_nil] at hih
          exact congrArg (fun t => pairsFor l right_blocks 0 ++ t) hih
        | some c =>
          dsimp only
          exact congrArg (fun t => pairsFor l right_blocks 0 ++ t) hih
    · rw [crossLoop_cons_continue M right_blocks l rest pos 0 ra hov]
      rcases h4 : crossLoop M right_blocks rest (pos + 1) 0
          (ra + (pairsFor l right_blocks 0).length) with ⟨out, cont⟩
      dsimp only
      have hih := ih (pos + 1) (ra + (pairsFor l right_blocks 0).length) fuel hrest
        (by simp at hfuel ⊢; omega)
      rw [h4] at hih
      dsimp only at hih
      rw [List.flatMap_cons, List.append_assoc]
      exact congrArg (fun t => pairsFor l right_blocks 0 ++ t) hih

theorem crossProductAll_eq_flatMap {α β : Type} (left_rows : List α)
    (right_blocks : List (List β)) :
    crossProductAll left_rows right_blocks
      = left_rows.flatMap (fun x => pairsFor x right_blocks 0) := rfl

theorem length_flatMap_pairs {α β : Type} (l : α) (bs : List (List β)) :
    (bs.flatMap (fun b => b.map (fun r => (l, r)))).length
      = (bs.map List.length).sum := by
  induction bs with
  | nil => rfl
  | cons b rest ih =>
    simp only [List.flatMap_cons, List.length_append, List.length_map,
      List.map_cons, List.sum_cons, ih]

theorem sum_map_length_drop_le {β : Type} (rbs : List (List β)) (d : Nat) :
    ((rbs.drop d).map List.length).sum ≤ (rbs.map List.length).sum := by
  induction rbs generalizing d with
  | nil => simp
  | cons b rest ih =>
    cases d with
    | zero => simp
    | succ n =>
      simp only [List.drop_succ_cons, List.map_cons, List.sum_cons]
      have := ih n
      omega

theorem pairsFor_length_le {α β : Type} (l : α) (right_blocks : List (List β))
    (srb : Nat) :
    (pairsFor l right_blocks srb).length ≤ rightRowsTotal right_blocks := by
  rw [pairsFor, rightRowsTotal, length_flatMap_pairs]
  exact sum_map_length_drop_le right_blocks (srb - 1)

theorem crossLoop_chunk_bound {α β : Type} (M : Nat)
    (right_blocks : List (List β)) :
    ∀ (rem : List α) (pos srb ra : Nat), ra ≤ M →
      ((crossLoop M right_blocks rem pos srb ra).2 = none →
        ra + (crossLoop M right_blocks rem pos srb ra).1.length ≤ M)
      ∧ (∀ c, (crossLoop M right_blocks rem pos srb ra).2 = some c →
          ∃ core lx srb2,
            (crossLoop M right_blocks rem pos srb ra).1
              = core ++ pairsFor lx right_blocks srb2
            ∧ ra + core.length ≤ M) := by
  intro rem
  induction rem with
  | nil =>
    intro pos srb ra hra
    constructor
    · intro _
      simpa [crossLoop] using hra
    · intro c hc
      rw [crossLoop] at hc
      cases hc
  | cons l rest ih =>
    intro pos srb ra hra
    by_cases hov : M < ra + (pairsFor l right_blocks srb).length
    · rw [crossLoop_cons_overflow M right_blocks l rest pos srb ra hov]
      constructor
      · intro hc
        cases hc
      · intro c hc
        exact ⟨[], l, srb, by simp, by simpa using hra⟩
    · have hra2 : ra + (pairsFor l right_blocks srb).length ≤ M := by omega
      obtain ⟨ihn, ihs⟩ := ih (pos + 1) 0
        (ra + (pairsFor l right_blocks srb).length) hra2
      rw [crossLoop_cons_continue M right_blocks l rest pos srb ra hov]
      dsimp only
      constructor
      · intro hc
        have hb := ihn hc
        simp only [List.length_append]
        omega
      · intro c hc
        obtain ⟨core2, lx, srb2, hout, hbound⟩ := ihs c hc
        refine ⟨pairsFor l right_blocks srb ++ core2, lx, srb2, ?_, ?_⟩
        · rw [hout, List.append_assoc]
        · simp only [List.length_append]
          omega

end HashJoinM

namespace HashJoinM

/-- Claim C2: for every left block, every list of stored right blocks, and
every limit M = max_joined_block_rows, repeatedly calling the cross-join
streamer and re-entering it with the returned continuation
(left_position, right_block) until no continuation is produced yields output
blocks whose concatenation equals the single-shot Cartesian product computed
with no row limit, in left-row-major, then right-block, then right-row
order. -/
theorem crossJoin_resumption_equals_single_shot {α β : Type} (M : Nat)
    (left_rows : List α) (right_blocks : List (List β)) :
    crossDrive M left_rows right_blocks (left_rows.length + 1) 0 0
      = crossProductAll left_rows right_blocks := by
  have h := crossLoop_drive_eq M left_rows right_blocks left_rows 0 0
    left_rows.length rfl (Nat.le_refl _)
  rw [crossDrive]
  have hjb0 : joinBlockCross M left_rows right_blocks 0 0
      = crossLoop M right_blocks left_rows 0 0 0 := rfl
  rw [hjb0, crossProductAll_eq_flatMap]
  rcases h5 : crossLoop M right_blocks left_rows 0 0 0 with ⟨out, cont⟩
  rw [h5] at h
  dsimp only at h
  cases cont with
  | none =>
    dsimp only
    rw [List.append_nil] at h
    exact h
  | some c =>
    dsimp only
    exact h

/-- Claim C7: for every input and every M = max_joined_block_rows, each
output block produced by one call of the cross-join streamer contains at
most M rows apart from one trailing overflow segment: when no continuation
is produced the block has at most M rows; when a continuation is produced
the block is a core of at most M rows followed by the Cartesian strip of one
single left row (the trailing overflow), so its total length is at most M
plus the total number of stored right rows. -/
theorem crossJoin_chunk_at_most_M_plus_overflow {α β : Type} (M : Nat)
    (left_rows : List α) (right_blocks : List (List β))
    (start_left start_right_block : Nat) :
    ((joinBlockCross M left_rows right_blocks start_left start_right_block).2
        = none →
      (joinBlockCross M left_rows right_blocks start_left
          start_right_block).1.length ≤ M)
    ∧ (∀ c, (joinBlockCross M left_rows right_blocks start_left
          start_right_block).2 = some c →
        ∃ core lx srb2,
          (joinBlockCross M left_rows right_blocks start_left
              start_right_block).1 = core ++ pairsFor lx right_blocks srb2
          ∧ core.length ≤ M
          ∧ (joinBlockCross M left_rows right_blocks start_left
              start_right_block).1.length
              ≤ M + rightRowsTotal right_blocks) := by
  simp only [joinBlockCross]
  obtain ⟨hn, hs⟩ := crossLoop_chunk_bound M right_blocks
    (left_rows.drop start_left) start_left start_right_block 0 (Nat.zero_le M)
  constructor
  · intro hc
    have hb := hn hc
    omega
  · intro c hc
    obtain ⟨core, lx, srb2, hout, hbound⟩ := hs c hc
    refine ⟨core, lx, srb2, hout, by omega, ?_⟩
    have hlen := congrArg List.length hout
    rw [List.length_append] at hlen
    have hp := pairsFor_length_le lx right_blocks srb2
    omega

/-- Claim C7 witness: M = 1, two left rows, one right block of two rows; the
first chunk overflows and a continuation is produced, and the chunk bound
from the theorem applies to it. -/
theorem crossJoin_chunk_at_most_M_plus_overflow_witness :
    (joinBlockCross 1 [0, 1] [[0, 0]] 0 0).2 = some ((0 : Nat), (2 : Nat))
    ∧ ∃ core lx srb2,
        (joinBlockCross 1 [0, 1] [[0, 0]] 0 0).1
          = core ++ pairsFor lx [[0, 0]] srb2
        ∧ core.length ≤ 1
        ∧ (joinBlockCross 1 [0, 1] [[0, 0]] 0 0).1.length
            ≤ 1 + rightRowsTotal [[0, 0]] := by
  constructor
  · rfl
  · exact (crossJoin_chunk_at_most_M_plus_overflow 1 [0, 1] [[0, 0]] 0 0).2
      (0, 2) rfl

end HashJoinM
